import Mathlib

/-!
Verification of the metrics engine of the romusha repository: the label
parser and exposition parser of nusacontact-exporter.ts and the temporal
clustering engine of gamas-exporter.ts, modelled as a shallow embedding.
JavaScript strings are lists of characters, JavaScript numbers produced by
parseFloat are `Option ℚ` with `none` standing for NaN, and Date values are
epoch-millisecond integers (Date.getTime).
-/

set_option maxHeartbeats 1000000

namespace Romusha

/-- Characters of a JavaScript string, the form all parser functions work on. -/
abbrev Str := List Char

/-- Whitespace characters recognised by the JavaScript trim and parseFloat
models used in this development. -/
def jsIsWS (c : Char) : Bool :=
  c = ' ' || c = '\t' || c = '\n' || c = '\r'

/-- Model of JavaScript String.prototype.trim: strip whitespace from both
ends. -/
def jsTrim (s : Str) : Str :=
  ((s.dropWhile jsIsWS).reverse.dropWhile jsIsWS).reverse

/-- Model of JavaScript String.prototype.indexOf for a single character:
index of the first occurrence, or -1 when the character is absent. -/
def jsIndexOf : Str → Char → Int
  | [], _ => -1
  | x :: xs, c =>
    if x = c then 0
    else
      let r := jsIndexOf xs c
      if r = -1 then -1 else r + 1

/-- Model of JavaScript String.prototype.substring: negative arguments clamp
to 0, arguments beyond the length clamp to the length, and the two arguments
are swapped when given in the wrong order. -/
def jsSubstring (s : Str) (a b : Int) : Str :=
  let n : Int := s.length
  let a2 := min (max a 0) n
  let b2 := min (max b 0) n
  let lo := min a2 b2
  let hi := max a2 b2
  (s.take hi.toNat).drop lo.toNat

/-- Model of JavaScript plain-object assignment obj[k] = v on a string-keyed
object kept as an insertion-ordered association list: an existing key keeps
its position and receives the new value, a new key is appended at the end. -/
def objSet {α : Type} : List (Str × α) → Str → α → List (Str × α)
  | [], k, v => [(k, v)]
  | (k2, v2) :: rest, k, v =>
    if k2 = k then (k, v) :: rest else (k2, v2) :: objSet rest k v

/-- Model of the JavaScript property read obj[k] on the same object
representation: the value at the key, or none when the key is absent. -/
def objGet {α : Type} : List (Str × α) → Str → Option α
  | [], _ => none
  | (k2, v2) :: rest, k => if k2 = k then some v2 else objGet rest k

/-- Numeric value of a run of decimal digit characters, most significant
first, as accumulated by a decimal parser. -/
def digitsVal (l : Str) : Nat :=
  l.foldl (fun a c => a * 10 + (c.toNat - '0'.toNat)) 0

/-- Optionally signed digit run following the exponent marker accepted by
parseFloat; when no digits follow, the marker is not part of the number and
the exponent contributed is 0. -/
def jsParseSignedDigits (r : Str) : Int :=
  match r with
  | '+' :: d =>
    if d.takeWhile Char.isDigit = [] then 0 else (digitsVal (d.takeWhile Char.isDigit) : Int)
  | '-' :: d =>
    if d.takeWhile Char.isDigit = [] then 0 else -(digitsVal (d.takeWhile Char.isDigit) : Int)
  | d =>
    if d.takeWhile Char.isDigit = [] then 0 else (digitsVal (d.takeWhile Char.isDigit) : Int)

/-- Exponent suffix accepted by parseFloat after the mantissa: e or E, an
optional sign, then digits. -/
def jsParseExp (r : Str) : Int :=
  match r with
  | 'e' :: rest => jsParseSignedDigits rest
  | 'E' :: rest => jsParseSignedDigits rest
  | _ => 0

/-- Model of JavaScript parseFloat: skip leading whitespace, read an optional
sign, then the longest prefix of the form digits, optional dot and digits,
optional exponent; when that prefix contains no digit the result is NaN,
modelled as none. The Infinity spellings accepted by parseFloat are not
modelled; no input considered in this development contains them. -/
def jsParseFloat (s0 : Str) : Option ℚ :=
  let s := s0.dropWhile jsIsWS
  let sign : Int := if s.head? = some '-' then -1 else 1
  let s1 := if s.head? = some '-' ∨ s.head? = some '+' then s.tail else s
  let ip := s1.takeWhile Char.isDigit
  let r1 := s1.dropWhile Char.isDigit
  let fp := if r1.head? = some '.' then r1.tail.takeWhile Char.isDigit else []
  let r2 := if r1.head? = some '.' then r1.tail.dropWhile Char.isDigit else r1
  if ip = [] ∧ fp = [] then none
  else
    let mantNum : Int :=
      sign * ((digitsVal ip : Int) * Int.pow 10 fp.length + (digitsVal fp : Int))
    let e := jsParseExp r2
    if 0 ≤ e then some (mkRat (mantNum * Int.pow 10 e.toNat) (Nat.pow 10 fp.length))
    else some (mkRat mantNum (Nat.pow 10 fp.length * Nat.pow 10 (-e).toNat))

/-- Digits of a positive natural number, most significant first, computed
with an explicit fuel bound so that the definition is structural. -/
def natReprAux : Nat → Nat → Str
  | 0, _ => []
  | fuel + 1, n =>
    if n = 0 then [] else natReprAux fuel (n / 10) ++ [Nat.digitChar (n % 10)]

/-- Decimal rendering of a natural number, as produced by JavaScript template
interpolation of a nonnegative integer count. -/
def natRepr (n : Nat) : Str :=
  if n = 0 then ['0'] else natReprAux n n

section LabelParser

/-- States of the parseAttributes character state machine, named INITIAL,
READING_ATTR, IN_QUOTE, READING_VALUE and AFTER_SEP in the source. -/
inductive AttrState
  | INITIAL
  | READING_ATTR
  | IN_QUOTE
  | READING_VALUE
  | AFTER_SEP
deriving DecidableEq

/-- The mutable locals of parseAttributes: the current state, the active
quote character, the name and value buffers, and the attrs object built so
far. -/
structure AttrMachine where
  state : AttrState
  quote : Char
  attrBuf : Str
  valBuf : Str
  attrs : List (Str × Str)
deriving DecidableEq

/-- Start configuration of parseAttributes. -/
def initAttrMachine : AttrMachine :=
  { state := .INITIAL, quote := '"', attrBuf := [], valBuf := [], attrs := [] }

/-- commitAttribute from the source: store the buffered name/value pair in
the attrs object (overwriting any earlier value for the name), clear both
buffers, and return to the INITIAL state. -/
def commitAttribute (m : AttrMachine) : AttrMachine :=
  { state := .INITIAL
    quote := m.quote
    attrBuf := []
    valBuf := []
    attrs := objSet m.attrs m.attrBuf m.valBuf }

/-- One character of the parseAttributes switch statement. -/
def stepAttr (m : AttrMachine) (c : Char) : Except String AttrMachine :=
  match m.state with
  | .INITIAL =>
    if c = ' ' ∨ c = ',' then .ok m
    else if c = '=' then .error "Unexpected \"=\" without attribute name"
    else .ok { m with state := .READING_ATTR, attrBuf := m.attrBuf ++ [c] }
  | .READING_ATTR =>
    if c = '=' then .ok { m with state := .AFTER_SEP }
    else if c = ' ' then .error "Space in attribute name"
    else .ok { m with attrBuf := m.attrBuf ++ [c] }
  | .AFTER_SEP =>
    if c = '"' ∨ c = '\x27' then .ok { m with state := .IN_QUOTE, quote := c }
    else if c ≠ ' ' then .ok { m with state := .READING_VALUE, valBuf := m.valBuf ++ [c] }
    else .ok m
  | .READING_VALUE =>
    if c = ' ' ∨ c = ',' then .ok (commitAttribute m)
    else .ok { m with valBuf := m.valBuf ++ [c] }
  | .IN_QUOTE =>
    if c = m.quote then .ok (commitAttribute m)
    else .ok { m with valBuf := m.valBuf ++ [c] }

/-- The character loop of parseAttributes over the input. -/
def runAttr (m : AttrMachine) : Str → Except String AttrMachine
  | [] => .ok m
  | c :: cs =>
    match stepAttr m c with
    | .ok m2 => runAttr m2 cs
    | .error e => .error e

/-- End-of-input handling of parseAttributes: a pending bare value is
committed; any state other than READING_VALUE, INITIAL or IN_QUOTE is an
error; INITIAL and IN_QUOTE return the attrs object as built. -/
def finishAttr (m : AttrMachine) : Except String (List (Str × Str)) :=
  if m.state = .READING_VALUE then .ok (commitAttribute m).attrs
  else if m.state ≠ .INITIAL ∧ m.state ≠ .IN_QUOTE then .error "Input ended unexpectedly"
  else .ok m.attrs

/-- parseAttributes from the source: run the state machine over the label
fragment and apply the end-of-input rule. -/
def parseAttributes (input : Str) : Except String (List (Str × Str)) :=
  match runAttr initAttrMachine input with
  | .ok m => finishAttr m
  | .error e => .error e

/-- The pairs committed by a single step of the machine: one pair exactly
when the step runs commitAttribute, none otherwise. -/
def stepCommits (m : AttrMachine) (c : Char) : List (Str × Str) :=
  match m.state with
  | .READING_VALUE => if c = ' ' ∨ c = ',' then [(m.attrBuf, m.valBuf)] else []
  | .IN_QUOTE => if c = m.quote then [(m.attrBuf, m.valBuf)] else []
  | _ => []

/-- The sequence of pairs committed while the loop runs over the input. -/
def runCommits (m : AttrMachine) : Str → List (Str × Str)
  | [] => []
  | c :: cs =>
    match stepAttr m c with
    | .ok m2 => stepCommits m c ++ runCommits m2 cs
    | .error _ => []

/-- All pairs committed by parseAttributes on an input, the final commit of a
pending bare value included. -/
def commitsOf (input : Str) : List (Str × Str) :=
  match runAttr initAttrMachine input with
  | .ok m =>
    if m.state = .READING_VALUE then
      runCommits initAttrMachine input ++ [(m.attrBuf, m.valBuf)]
    else runCommits initAttrMachine input
  | .error _ => []

/-- The value of the last committed pair carrying a given name, if any. -/
def lastVal (t : List (Str × Str)) (n : Str) : Option Str :=
  match t with
  | [] => none
  | (k, v) :: rest =>
    match lastVal rest n with
    | some w => some w
    | none => if k = n then some v else none

end LabelParser

section ExpositionParser

/-- One parsed sample: its label object and its numeric value; none models
the NaN produced by a failed parseFloat. -/
structure Metric where
  labels : List (Str × Str)
  value : Option ℚ
deriving DecidableEq

/-- Body of the parseMetricLines loop for one non-comment line: locate the
first opening and closing braces, cut out name, label fragment and value
text with substring, trim the parts, parse labels and value. -/
def parseLine (line : Str) : Except String (Str × Metric) :=
  let metricNameEnd := jsIndexOf line '\x7b'
  let labelsStart := metricNameEnd + 1
  let labelsEnd := jsIndexOf line '\x7d'
  let valueStart := labelsEnd + 1
  let metricName := jsTrim (jsSubstring line 0 metricNameEnd)
  let labelString := jsTrim (jsSubstring line labelsStart labelsEnd)
  let value := jsParseFloat (jsTrim (jsSubstring line valueStart line.length))
  match parseAttributes labelString with
  | .ok labels => .ok (metricName, { labels := labels, value := value })
  | .error e => .error e

/-- The per-line loop of parseMetricLines, threading the result object that
maps a metric name to its samples in line order. -/
def parseLinesGo (acc : List (Str × List Metric)) :
    List Str → Except String (List (Str × List Metric))
  | [] => .ok acc
  | line :: rest =>
    if line.head? = some '#' then parseLinesGo acc rest
    else
      match parseLine line with
      | .ok (name, met) =>
        parseLinesGo (objSet acc name ((objGet acc name).getD [] ++ [met])) rest
      | .error e => .error e

/-- parseMetricLines from the source: trim the blob, split it on newlines,
skip comment lines, and parse every remaining line. -/
def parseMetricLines (input : Str) : Except String (List (Str × List Metric)) :=
  parseLinesGo [] ((jsTrim input).splitOn '\n')

end ExpositionParser

section QueueCounter

/-- Per-sample tag matching of generateNusacontactQueueMetrics: the optional
chain labels.tags?.includes(tag) is false when the tags label is absent, and
is substring containment otherwise. -/
def tagMatches (labels : List (Str × Str)) (tag : Str) : Bool :=
  match objGet labels "tags".data with
  | some v => decide (tag <:+: v)
  | none => false

/-- The inner loop over the allowed tags for one filtered sample: each tag
contained in the sample's tags label has its counter incremented. -/
def countQueuesStep (tags : List Str) (qc : List (Str × Nat)) (m : Metric) :
    List (Str × Nat) :=
  tags.foldl
    (fun acc tag =>
      if tagMatches m.labels tag then objSet acc tag ((objGet acc tag).getD 0 + 1)
      else acc)
    qc

/-- The filter-and-count stage of generateNusacontactQueueMetrics: keep the
samples whose type label equals "enqueued", then tally the allowed tags. -/
def countQueues (tags : List Str) (metrics : List Metric) : List (Str × Nat) :=
  (metrics.filter
      (fun m => decide (objGet m.labels "type".data = some "enqueued".data))).foldl
    (countQueuesStep tags) []

/-- One output line of generateNusacontactQueueMetrics: the metric name, an
opening brace, the tag label, a closing brace, a space and the count. -/
def renderQueueLine (name tag : Str) (count : Nat) : Str :=
  name ++ ['\x7b'] ++ "tag=\"".data ++ tag ++ "\"\x7d ".data ++ natRepr count

/-- The rendered metrics blob: one line per counter entry, joined with
newlines as written by writeMetricsFile. -/
def renderQueueMetrics (name : Str) (m : List (Str × Nat)) : Str :=
  List.intercalate ['\n'] (m.map (fun p => renderQueueLine name p.1 p.2))

/-- Specification-side reading of a parse result as a tag-to-count mapping:
the samples filed under the metric name, each reduced to its tag label and
its value. -/
def reconstructQueue (res : List (Str × List Metric)) (name : Str) :
    List (Option Str × Option ℚ) :=
  ((objGet res name).getD []).map (fun s => (objGet s.labels "tag".data, s.value))

end QueueCounter

section Clustering

/-- One alert flattened by extractAndSortIncidents; startsAt is the epoch
millisecond value of the ISO timestamp (Date.getTime). -/
structure Incident where
  startsAt : Int
  host : Str
  link : Str
  region : Str
deriving DecidableEq

/-- A cluster built by groupIncidents; startsAtMin and startsAtMax are the
epoch milliseconds of the two span ends. -/
structure IncidentGroup where
  region : Str
  link : Str
  hosts : List Str
  count : Nat
  startsAtMin : Int
  startsAtMax : Int
deriving DecidableEq

/-- isWithinTolerance from the source: the absolute difference of the two
epoch-millisecond instants is at most toleranceSeconds * 1000. -/
def isWithinTolerance (date1 date2 : Int) (toleranceSeconds : Int) : Bool :=
  decide (|date1 - date2| ≤ toleranceSeconds * 1000)

/-- The find predicate of groupIncidents: same region and link, and the
incident time within tolerance of either span end. -/
def matchesGroup (tol : Int) (inc : Incident) (g : IncidentGroup) : Bool :=
  decide (g.region = inc.region) && decide (g.link = inc.link) &&
    (isWithinTolerance g.startsAtMin inc.startsAt tol ||
     isWithinTolerance g.startsAtMax inc.startsAt tol)

/-- The fresh group created for an incident that matched no existing group:
a one-host group whose span is the single timestamp. -/
def newGroup (inc : Incident) : IncidentGroup :=
  { region := inc.region
    link := inc.link
    hosts := [inc.host]
    count := 1
    startsAtMin := inc.startsAt
    startsAtMax := inc.startsAt }

/-- The in-place mutation of a matched group: append the host, bump the
count, and widen the span with min and max. -/
def updateGroup (g : IncidentGroup) (inc : Incident) : IncidentGroup :=
  { g with
    hosts := g.hosts ++ [inc.host]
    count := g.count + 1
    startsAtMin := min g.startsAtMin inc.startsAt
    startsAtMax := max g.startsAtMax inc.startsAt }

/-- Array.prototype.find over the group list followed by the source's update:
the first matching group absorbs the incident, a duplicate host is ignored,
and with no match a new group is appended at the end of the list. -/
def insertIncident (tol : Int) (inc : Incident) : List IncidentGroup → List IncidentGroup
  | [] => [newGroup inc]
  | g :: gs =>
    if matchesGroup tol inc g then
      if g.hosts.contains inc.host then g :: gs else updateGroup g inc :: gs
    else g :: insertIncident tol inc gs

/-- One iteration of the groupIncidents loop: an incident outside the
retention horizon of now is dropped, any other incident is placed. -/
def stepIncident (now tol horizon : Int) (groups : List IncidentGroup)
    (inc : Incident) : List IncidentGroup :=
  if isWithinTolerance inc.startsAt now horizon then insertIncident tol inc groups
  else groups

/-- The groupIncidents loop, from a given group-list state. -/
def groupIncidentsGo (now tol horizon : Int) (groups : List IncidentGroup) :
    List Incident → List IncidentGroup
  | [] => groups
  | inc :: rest =>
    groupIncidentsGo now tol horizon (stepIncident now tol horizon groups inc) rest

/-- groupIncidents from the source, with the ambient clock (new Date) and the
two configuration values passed explicitly. -/
def groupIncidents (now tol horizon : Int) (incidents : List Incident) :
    List IncidentGroup :=
  groupIncidentsGo now tol horizon [] incidents

end Clustering

section SanityChecks

example : parseAttributes "type=\"enqueued\",tags=\"billing\"".data =
    .ok [("type".data, "enqueued".data), ("tags".data, "billing".data)] := rfl

example : parseAttributes "a=\"unterminated".data = .ok [] := rfl

example : jsParseFloat "3.5".data = some (mkRat 7 2) := by decide

example : jsParseFloat "-2e3".data = some (mkRat (-2000) 1) := by decide

example : jsParseFloat "1.25e-2".data = some (mkRat 1 80) := by decide

example : jsParseFloat "foo 3.5".data = none := rfl

example : parseMetricLines "foo\x7ba=1,b=\"x y\"\x7d 3.5".data =
    .ok [("foo".data,
      [⟨[("a".data, "1".data), ("b".data, "x y".data)], jsParseFloat "3.5".data⟩])] := rfl

end SanityChecks

section ClusteringProofs

theorem isWithinTolerance_false_of_old (ts now horizon : Int)
    (h : now - ts > horizon * 1000) : isWithinTolerance ts now horizon = false := by
  simp only [isWithinTolerance, decide_eq_false_iff_not, not_le]
  calc horizon * 1000 < now - ts := h
    _ ≤ |now - ts| := le_abs_self _
    _ = |ts - now| := abs_sub_comm _ _

theorem insertIncident_of_dup (tol : Int) (inc : Incident) :
    ∀ (groups : List IncidentGroup) (g : IncidentGroup),
      groups.find? (matchesGroup tol inc) = some g →
      g.hosts.contains inc.host = true →
      insertIncident tol inc groups = groups := by
  intro groups
  induction groups with
  | nil => intro g h _; simp [List.find?] at h
  | cons g0 gs ih =>
    intro g hfind hdup
    by_cases hm : matchesGroup tol inc g0 = true
    · rw [List.find?_cons_of_pos _ hm] at hfind
      obtain rfl : g0 = g := by injection hfind
      unfold insertIncident
      rw [if_pos hm, if_pos hdup]
    · rw [List.find?_cons_of_neg _ hm] at hfind
      simp [insertIncident, hm, ih g hfind hdup]

/-- C5: an event that matches an existing group already containing its member
key leaves the whole clustering state unchanged: no member set, count or span
is modified and no group is created. -/
theorem duplicate_member_leaves_state_unchanged (now tol horizon : Int)
    (groups : List IncidentGroup) (inc : Incident) (g : IncidentGroup)
    (hfind : groups.find? (matchesGroup tol inc) = some g)
    (hdup : g.hosts.contains inc.host = true) :
    stepIncident now tol horizon groups inc = groups := by
  unfold stepIncident
  split
  · exact insertIncident_of_dup tol inc groups g hfind hdup
  · rfl

theorem duplicate_member_witness :
    stepIncident 0 100 100000
      [⟨"K".data, "L".data, ["A".data], 1, 0, 0⟩]
      ⟨10, "A".data, "L".data, "K".data⟩ =
      [⟨"K".data, "L".data, ["A".data], 1, 0, 0⟩] :=
  duplicate_member_leaves_state_unchanged 0 100 100000 _ _
    ⟨"K".data, "L".data, ["A".data], 1, 0, 0⟩ (by decide) (by decide)

/-- C6: an event whose timestamp lies farther than the horizon in the past of
now is discarded: its step is the identity on the group list, and a run over
an event list containing it equals the run with the event removed. -/
theorem old_incident_contributes_nothing (now tol horizon : Int)
    (inc : Incident) (h : now - inc.startsAt > horizon * 1000) :
    (∀ groups, stepIncident now tol horizon groups inc = groups) ∧
    (∀ gs pre post, groupIncidentsGo now tol horizon gs (pre ++ inc :: post) =
      groupIncidentsGo now tol horizon gs (pre ++ post)) := by
  have hstep : ∀ groups, stepIncident now tol horizon groups inc = groups := by
    intro groups
    simp [stepIncident, isWithinTolerance_false_of_old _ _ _ h]
  refine ⟨hstep, ?_⟩
  intro gs pre post
  induction pre generalizing gs with
  | nil => simp [groupIncidentsGo, hstep]
  | cons p pre ih => simp [groupIncidentsGo, ih]

theorem old_incident_witness :
    stepIncident 200000000 100 100000 [] ⟨0, "A".data, "L".data, "K".data⟩ = [] :=
  (old_incident_contributes_nothing 200000000 100 100000 _ (by decide)).1 []

theorem insertIncident_span (tol : Int) (inc : Incident) :
    ∀ (groups : List IncidentGroup),
      (∀ g ∈ groups, g.startsAtMin ≤ g.startsAtMax) →
      ∀ g ∈ insertIncident tol inc groups, g.startsAtMin ≤ g.startsAtMax := by
  intro groups
  induction groups with
  | nil =>
    intro _ g hg
    simp only [insertIncident, List.mem_singleton] at hg
    subst hg
    exact le_refl _
  | cons g0 gs ih =>
    intro hall g hg
    have h0 : g0.startsAtMin ≤ g0.startsAtMax := hall g0 (by simp)
    have hrest : ∀ g ∈ gs, g.startsAtMin ≤ g.startsAtMax :=
      fun g hgm => hall g (by simp [hgm])
    simp only [insertIncident] at hg
    by_cases hm : matchesGroup tol inc g0 = true
    · rw [if_pos hm] at hg
      by_cases hd : g0.hosts.contains inc.host = true
      · rw [if_pos hd] at hg
        rcases List.mem_cons.mp hg with rfl | hgs
        · exact h0
        · exact hrest g hgs
      · rw [if_neg hd] at hg
        rcases List.mem_cons.mp hg with rfl | hgs
        · exact le_trans (min_le_left _ _) (le_trans h0 (le_max_left _ _))
        · exact hrest g hgs
    · rw [if_neg hm] at hg
      rcases List.mem_cons.mp hg with rfl | hgs
      · exact h0
      · exact ih hrest g hgs

theorem stepIncident_span (now tol horizon : Int) (groups : List IncidentGroup)
    (inc : Incident) (h : ∀ g ∈ groups, g.startsAtMin ≤ g.startsAtMax) :
    ∀ g ∈ stepIncident now tol horizon groups inc, g.startsAtMin ≤ g.startsAtMax := by
  unfold stepIncident
  split
  · exact insertIncident_span tol inc groups h
  · exact h

/-- C9: every group satisfies spanStart less-or-equal spanEnd at all times:
from any group-list state satisfying the invariant, the whole clustering run
only produces groups satisfying it, creation (both ends equal the event
timestamp) and widening (min and max) included. -/
theorem c9_span_invariant (now tol horizon : Int) :
    ∀ (incs : List Incident) (gs : List IncidentGroup),
      (∀ g ∈ gs, g.startsAtMin ≤ g.startsAtMax) →
      ∀ g ∈ groupIncidentsGo now tol horizon gs incs, g.startsAtMin ≤ g.startsAtMax := by
  intro incs
  induction incs with
  | nil => intro gs h; simpa [groupIncidentsGo] using h
  | cons inc rest ih =>
    intro gs h
    simp only [groupIncidentsGo]
    exact ih _ (stepIncident_span now tol horizon gs inc h)

theorem c9_span_invariant_witness :
    (newGroup ⟨0, "A".data, "L".data, "K".data⟩).startsAtMin ≤
      (newGroup ⟨0, "A".data, "L".data, "K".data⟩).startsAtMax :=
  c9_span_invariant 0 100 100000 [⟨0, "A".data, "L".data, "K".data⟩] []
    (by simp) (newGroup ⟨0, "A".data, "L".data, "K".data⟩) (by decide)

/-- C4: the three events at (in milliseconds) 0, 50000 and 500000 sharing
region K and link L, with tolerance 100 seconds and horizon 100000 seconds
and now at 0, produce exactly two groups: hosts A and B spanning 0 to 50000,
and host C alone spanning 500000 to 500000; the third event is farther than
the tolerance from both ends of the first group's span. -/
theorem c4_clustering_example :
    groupIncidents 0 100 100000
      [⟨0, "A".data, "L".data, "K".data⟩,
       ⟨50 * 1000, "B".data, "L".data, "K".data⟩,
       ⟨500 * 1000, "C".data, "L".data, "K".data⟩] =
      [⟨"K".data, "L".data, ["A".data, "B".data], 2, 0, 50 * 1000⟩,
       ⟨"K".data, "L".data, ["C".data], 1, 500 * 1000, 500 * 1000⟩] := by decide

end ClusteringProofs

section StringLemmas

theorem jsIndexOf_of_not_mem (s : Str) (c : Char) (h : c ∉ s) : jsIndexOf s c = -1 := by
  induction s with
  | nil => rfl
  | cons x xs ih =>
    have hx : ¬ x = c := fun he => h (he ▸ List.mem_cons_self x xs)
    have hxs : c ∉ xs := fun hm => h (List.mem_cons_of_mem x hm)
    simp [jsIndexOf, hx, ih hxs]

theorem jsIndexOf_append (xs ys : Str) (c : Char) (h : c ∉ xs) :
    jsIndexOf (xs ++ c :: ys) c = (xs.length : Int) := by
  induction xs with
  | nil => simp [jsIndexOf]
  | cons x xs ih =>
    have hx : ¬ x = c := fun he => h (he ▸ List.mem_cons_self x xs)
    have hxs : c ∉ xs := fun hm => h (List.mem_cons_of_mem x hm)
    have hr : jsIndexOf (xs ++ c :: ys) c = (xs.length : Int) := ih hxs
    simp only [List.cons_append, jsIndexOf, List.append_eq, if_neg hx, hr]
    rw [if_neg (by omega)]
    simp only [List.length_cons]
    omega

theorem jsSubstring_natCast (s : Str) (i j : Nat) (hij : i ≤ j) (hj : j ≤ s.length) :
    jsSubstring s (i : Int) (j : Int) = (s.take j).drop i := by
  simp only [jsSubstring]
  have h1 : max (i : Int) 0 = (i : Int) := max_eq_left (Int.natCast_nonneg i)
  have h2 : min (i : Int) (s.length : Int) = (i : Int) :=
    min_eq_left (by exact_mod_cast hij.trans hj)
  have h3 : max (j : Int) 0 = (j : Int) := max_eq_left (Int.natCast_nonneg j)
  have h4 : min (j : Int) (s.length : Int) = (j : Int) := min_eq_left (by exact_mod_cast hj)
  rw [h1, h2, h3, h4]
  rw [min_eq_left (show (i : Int) ≤ (j : Int) by exact_mod_cast hij)]
  rw [max_eq_right (show (i : Int) ≤ (j : Int) by exact_mod_cast hij)]
  rw [Int.toNat_natCast, Int.toNat_natCast]

theorem jsSubstring_prefix (xs ys : Str) :
    jsSubstring (xs ++ ys) 0 (xs.length : Int) = xs := by
  have h := jsSubstring_natCast (xs ++ ys) 0 xs.length (Nat.zero_le _)
    (by rw [List.length_append]; exact Nat.le_add_right _ _)
  simpa [List.take_left] using h

theorem jsSubstring_middle (xs ys zs : Str) :
    jsSubstring (xs ++ ys ++ zs) (xs.length : Int) ((xs.length + ys.length : Nat) : Int) = ys := by
  have h := jsSubstring_natCast (xs ++ ys ++ zs) xs.length (xs.length + ys.length)
    (Nat.le_add_right _ _) (by simp [List.length_append])
  rw [h]
  have ht : (xs ++ ys ++ zs).take (xs.length + ys.length) = xs ++ ys := by
    rw [← List.length_append]
    exact List.take_left _ _
  rw [ht, List.drop_left]

theorem jsSubstring_suffix (xs ys : Str) :
    jsSubstring (xs ++ ys) (xs.length : Int) (((xs ++ ys).length : Nat) : Int) = ys := by
  have h := jsSubstring_natCast (xs ++ ys) xs.length (xs ++ ys).length
    (by rw [List.length_append]; exact Nat.le_add_right _ _) (le_refl _)
  rw [h, List.take_length, List.drop_left]

theorem jsSubstring_zero_neg_one (s : Str) : jsSubstring s 0 (-1) = [] := by
  simp only [jsSubstring]
  have h1 : max (0 : Int) 0 = 0 := by norm_num
  have h2 : max (-1 : Int) 0 = 0 := by norm_num
  rw [h1, h2]
  have h3 : min (0 : Int) (s.length : Int) = 0 := min_eq_left (Int.natCast_nonneg _)
  rw [h3]
  simp

theorem jsSubstring_full (s : Str) : jsSubstring s 0 (s.length : Int) = s := by
  have h := jsSubstring_natCast s 0 s.length (Nat.zero_le _) (le_refl _)
  simpa using h

theorem dropWhile_eq_self_of_head (p : Char → Bool) (s : Str)
    (h : ∀ c, s.head? = some c → p c = false) : s.dropWhile p = s := by
  cases s with
  | nil => rfl
  | cons x xs => simp [List.dropWhile_cons, h x rfl]

theorem jsTrim_eq_self (s : Str)
    (h1 : ∀ c, s.head? = some c → jsIsWS c = false)
    (h2 : ∀ c, s.getLast? = some c → jsIsWS c = false) :
    jsTrim s = s := by
  unfold jsTrim
  rw [dropWhile_eq_self_of_head _ _ h1]
  rw [dropWhile_eq_self_of_head _ _
    (fun c hc => h2 c (by rwa [List.head?_reverse] at hc))]
  exact List.reverse_reverse s

theorem jsTrim_cons_ws (c : Char) (s : Str) (h : jsIsWS c = true) :
    jsTrim (c :: s) = jsTrim s := by
  unfold jsTrim
  simp [List.dropWhile_cons, h]

end StringLemmas

section CounterProofs

theorem countQueuesStep_of_no_tags (tags : List Str) (qc : List (Str × Nat))
    (m : Metric) (h : objGet m.labels "tags".data = none) :
    countQueuesStep tags qc m = qc := by
  have hmatch : ∀ tag, tagMatches m.labels tag = false := by
    intro tag; unfold tagMatches; rw [h]
  unfold countQueuesStep
  induction tags generalizing qc with
  | nil => rfl
  | cons t ts ih =>
    rw [List.foldl_cons, if_neg (by simp [hmatch t])]
    exact ih qc

/-- C10: a sample whose type label equals "enqueued" but which carries no
tags label at all matches no allowed tag: inserting it anywhere in the sample
list leaves every per-tag counter unchanged, the optional chain on the absent
label yielding no match rather than an error. -/
theorem c10_missing_tags_label_is_noop (tags : List Str) (pre post : List Metric)
    (m : Metric)
    (htype : objGet m.labels "type".data = some "enqueued".data)
    (htags : objGet m.labels "tags".data = none) :
    countQueues tags (pre ++ m :: post) = countQueues tags (pre ++ post) := by
  unfold countQueues
  rw [List.filter_append, List.filter_append, List.filter_cons, if_pos (by simp [htype])]
  rw [List.foldl_append, List.foldl_append, List.foldl_cons]
  rw [countQueuesStep_of_no_tags tags _ m htags]

theorem c10_witness :
    countQueues ["billing".data]
        ([] ++ (⟨[("type".data, "enqueued".data)], some 1⟩ : Metric) :: []) =
      countQueues ["billing".data] ([] ++ []) :=
  c10_missing_tags_label_is_noop ["billing".data] [] []
    ⟨[("type".data, "enqueued".data)], some 1⟩ (by decide) (by decide)

end CounterProofs

section LabelParserProofs

/-- C1 counterexample: a label fragment ending inside an unterminated quoted
value does not fail; parseAttributes returns a label object, here the empty
one, rather than an UnterminatedQuote error. -/
theorem c1_counterexample :
    parseAttributes "a=\"unterminated".data = .ok [] := rfl

/-- C1 as amended: when the character loop ends in the IN_QUOTE state the
parser does not fail; it returns exactly the attributes committed before the
unterminated quote opened, silently discarding the pending name and value. -/
theorem c1_unterminated_quote_returns_committed (input : Str) (m : AttrMachine)
    (hrun : runAttr initAttrMachine input = .ok m) (hq : m.state = .IN_QUOTE) :
    parseAttributes input = .ok m.attrs := by
  unfold parseAttributes
  rw [hrun]
  show finishAttr m = Except.ok m.attrs
  unfold finishAttr
  rw [hq]
  rfl

theorem c1_amended_witness :
    parseAttributes "a=\"unterminated".data =
      .ok (AttrMachine.mk .IN_QUOTE '"' "a".data "unterminated".data []).attrs :=
  c1_unterminated_quote_returns_committed "a=\"unterminated".data
    ⟨.IN_QUOTE, '"', "a".data, "unterminated".data, []⟩ (by rfl) (by rfl)

theorem objGet_objSet {α : Type} (l : List (Str × α)) (k n : Str) (v : α) :
    objGet (objSet l k v) n = if k = n then some v else objGet l n := by
  induction l with
  | nil =>
    by_cases h : k = n <;> simp [objSet, objGet, h]
  | cons p rest ih =>
    obtain ⟨k2, v2⟩ := p
    by_cases h : k2 = k
    · subst h
      by_cases h2 : k2 = n <;> simp [objSet, objGet, h2]
    · by_cases h2 : k2 = n
      · subst h2
        have h3 : ¬ k = k2 := fun hh => h hh.symm
        simp [objSet, objGet, h, h3]
      · simp [objSet, objGet, h, h2, ih]

theorem mem_keys_objSet (l : List (Str × Str)) (k x : Str) (v : Str) :
    x ∈ (objSet l k v).map Prod.fst ↔ x ∈ l.map Prod.fst ∨ x = k := by
  induction l with
  | nil => simp [objSet]
  | cons p rest ih =>
    obtain ⟨k2, v2⟩ := p
    by_cases hk : k2 = k
    · subst hk
      simp [objSet]
      tauto
    · simp [objSet, hk, ih]
      tauto

theorem keys_objSet_nodup (l : List (Str × Str)) (k : Str) (v : Str)
    (h : (l.map Prod.fst).Nodup) : ((objSet l k v).map Prod.fst).Nodup := by
  induction l with
  | nil => simp [objSet]
  | cons p rest ih =>
    obtain ⟨k2, v2⟩ := p
    by_cases hk : k2 = k
    · subst hk
      simpa [objSet] using h
    · simp only [objSet, if_neg hk, List.map_cons, List.nodup_cons] at h ⊢
      refine ⟨?_, ih h.2⟩
      intro hmem
      rcases (mem_keys_objSet rest k k2 v).mp hmem with hin | heq
      · exact h.1 hin
      · exact hk heq

theorem lastVal_append_single (t : List (Str × Str)) (k v : Str) (n : Str) :
    lastVal (t ++ [(k, v)]) n = if k = n then some v else lastVal t n := by
  induction t with
  | nil => rfl
  | cons p rest ih =>
    obtain ⟨k2, v2⟩ := p
    by_cases h : k = n
    · rw [if_pos h]
      show (match lastVal (rest ++ [(k, v)]) n with
        | some w => some w
        | none => if k2 = n then some v2 else none) = some v
      rw [ih, if_pos h]
    · rw [if_neg h]
      show (match lastVal (rest ++ [(k, v)]) n with
        | some w => some w
        | none => if k2 = n then some v2 else none) =
        (match lastVal rest n with
        | some w => some w
        | none => if k2 = n then some v2 else none)
      rw [ih, if_neg h]

theorem objGet_foldl_objSet (t : List (Str × Str)) (a : List (Str × Str)) (n : Str) :
    objGet (t.foldl (fun x p => objSet x p.1 p.2) a) n =
      match lastVal t n with
      | some w => some w
      | none => objGet a n := by
  induction t generalizing a with
  | nil => simp [lastVal]
  | cons p rest ih =>
    obtain ⟨k, v⟩ := p
    rw [List.foldl_cons, ih]
    simp only [lastVal]
    cases hrec : lastVal rest n with
    | some w => rfl
    | none =>
      rw [objGet_objSet]
      by_cases h : k = n <;> simp [h]

theorem nodup_foldl_objSet (t : List (Str × Str)) (a : List (Str × Str))
    (h : (a.map Prod.fst).Nodup) :
    ((t.foldl (fun x p => objSet x p.1 p.2) a).map Prod.fst).Nodup := by
  induction t generalizing a with
  | nil => simpa
  | cons p rest ih => exact ih _ (keys_objSet_nodup _ _ _ h)

theorem stepAttr_attrs (m : AttrMachine) (c : Char) (m2 : AttrMachine)
    (h : stepAttr m c = .ok m2) :
    m2.attrs = (stepCommits m c).foldl (fun x p => objSet x p.1 p.2) m.attrs := by
  cases hs : m.state <;>
    simp only [stepAttr, stepCommits, hs] at h ⊢ <;>
    split_ifs at h ⊢ <;>
    (injection h with h3; subst h3; simp [commitAttribute, List.foldl])

theorem runAttr_attrs (cs : Str) :
    ∀ (m m2 : AttrMachine), runAttr m cs = .ok m2 →
      m2.attrs = (runCommits m cs).foldl (fun x p => objSet x p.1 p.2) m.attrs := by
  induction cs with
  | nil =>
    intro m m2 h
    injection h with h2
    subst h2
    rfl
  | cons c cs ih =>
    intro m m2 h
    unfold runAttr at h
    unfold runCommits
    cases hstep : stepAttr m c with
    | error e =>
      rw [hstep] at h
      exact Except.noConfusion (show (Except.error e : Except String AttrMachine) = .ok m2 from h)
    | ok m1 =>
      rw [hstep] at h
      have h2 : runAttr m1 cs = Except.ok m2 := h
      show m2.attrs = List.foldl (fun x p => objSet x p.1 p.2) m.attrs
        (stepCommits m c ++ runCommits m1 cs)
      rw [List.foldl_append, ← stepAttr_attrs m c m1 hstep]
      exact ih m1 m2 h2

/-- C7: every label fragment accepted by parseAttributes yields an object
with pairwise distinct names, and the value stored under any name is the
value of the last pair committed for that name (last-write-wins). -/
theorem c7_last_write_wins (input : Str) (attrs : List (Str × Str))
    (h : parseAttributes input = .ok attrs) :
    (attrs.map Prod.fst).Nodup ∧ ∀ n, objGet attrs n = lastVal (commitsOf input) n := by
  unfold parseAttributes at h
  cases hrun : runAttr initAttrMachine input with
  | error e =>
    rw [hrun] at h
    exact Except.noConfusion
      (show (Except.error e : Except String (List (Str × Str))) = .ok attrs from h)
  | ok m =>
    rw [hrun] at h
    have hfin : finishAttr m = Except.ok attrs := h
    have hc : commitsOf input = (if m.state = AttrState.READING_VALUE then
        runCommits initAttrMachine input ++ [(m.attrBuf, m.valBuf)]
      else runCommits initAttrMachine input) := by
      unfold commitsOf
      rw [hrun]
    have hm : m.attrs =
        (runCommits initAttrMachine input).foldl (fun x p => objSet x p.1 p.2) [] :=
      runAttr_attrs input initAttrMachine m hrun
    have hnodup : (m.attrs.map Prod.fst).Nodup := by
      rw [hm]; exact nodup_foldl_objSet _ [] (by simp)
    have hget : ∀ n, objGet m.attrs n = lastVal (runCommits initAttrMachine input) n := by
      intro n
      rw [hm, objGet_foldl_objSet]
      cases lastVal (runCommits initAttrMachine input) n <;> rfl
    unfold finishAttr at hfin
    split_ifs at hfin with h1 h2
    · injection hfin with h3
      subst h3
      simp only [hc, if_pos h1]
      constructor
      · simp only [commitAttribute]
        exact keys_objSet_nodup _ _ _ hnodup
      · intro n
        simp only [commitAttribute]
        rw [objGet_objSet, lastVal_append_single, hget n]
    · injection hfin with h3
      subst h3
      simp only [hc, if_neg h1]
      exact ⟨hnodup, hget⟩

theorem c7_witness :
    objGet [("a".data, "2".data)] "a".data =
      lastVal (commitsOf "a=1,a=2".data) "a".data :=
  (c7_last_write_wins "a=1,a=2".data [("a".data, "2".data)] (by rfl)).2 "a".data

end LabelParserProofs

section ExpositionProofs

theorem parseLine_decomp (name body rest : Str)
    (h1 : '\x7b' ∉ name) (h2 : '\x7d' ∉ name) (h3 : '\x7d' ∉ body) :
    parseLine (name ++ '\x7b' :: (body ++ '\x7d' :: rest)) =
      match parseAttributes (jsTrim body) with
      | .ok labels =>
        .ok (jsTrim name, { labels := labels, value := jsParseFloat (jsTrim rest) })
      | .error e => .error e := by
  have hbm : '\x7d' ∉ name ++ '\x7b' :: body := by
    simp only [List.mem_append, List.mem_cons]
    push_neg
    exact ⟨h2, by decide, h3⟩
  have hidx1 : jsIndexOf (name ++ '\x7b' :: (body ++ '\x7d' :: rest)) '\x7b' =
      (name.length : Int) := jsIndexOf_append name _ _ h1
  have hidx2 : jsIndexOf (name ++ '\x7b' :: (body ++ '\x7d' :: rest)) '\x7d' =
      ((name ++ '\x7b' :: body).length : Int) := by
    have he : name ++ '\x7b' :: (body ++ '\x7d' :: rest) =
        (name ++ '\x7b' :: body) ++ '\x7d' :: rest := by simp
    rw [he, jsIndexOf_append _ _ _ hbm]
  have hsub1 : jsSubstring (name ++ '\x7b' :: (body ++ '\x7d' :: rest)) 0
      (name.length : Int) = name := jsSubstring_prefix name _
  have hsub2 : jsSubstring (name ++ '\x7b' :: (body ++ '\x7d' :: rest))
      ((name.length : Int) + 1) ((name ++ '\x7b' :: body).length : Int) = body := by
    have he : name ++ '\x7b' :: (body ++ '\x7d' :: rest) =
        (name ++ ['\x7b']) ++ body ++ ('\x7d' :: rest) := by simp
    have ha : ((name.length : Int) + 1) = (((name ++ ['\x7b']).length : Nat) : Int) := by
      simp
    have hb : (((name ++ '\x7b' :: body).length : Nat) : Int) =
        (((name ++ ['\x7b']).length + body.length : Nat) : Int) := by
      simp only [List.length_append, List.length_cons, List.length_nil]
      push_cast
      ring
    rw [ha, hb, he, jsSubstring_middle]
  have hsub3 : jsSubstring (name ++ '\x7b' :: (body ++ '\x7d' :: rest))
      (((name ++ '\x7b' :: body).length : Int) + 1)
      ((name ++ '\x7b' :: (body ++ '\x7d' :: rest)).length : Int) = rest := by
    have ha : (((name ++ '\x7b' :: body).length : Int) + 1) =
        (((name ++ '\x7b' :: (body ++ ['\x7d'])).length : Nat) : Int) := by
      simp only [List.length_append, List.length_cons, List.length_nil]
      push_cast
      ring
    have he : name ++ '\x7b' :: (body ++ '\x7d' :: rest) =
        (name ++ '\x7b' :: (body ++ ['\x7d'])) ++ rest := by simp
    rw [ha, he, jsSubstring_suffix]
  simp only [parseLine, hidx1, hidx2, hsub1, hsub2, hsub3]

/-- C2 counterexample: the line foo 3.5 (no braces) does not produce a sample
named foo with value 3.5; the JavaScript substring clamping files it under
the empty metric name and parseFloat of the whole line is NaN. -/
theorem c2_counterexample :
    parseMetricLines "foo 3.5".data = .ok [([], [⟨[], none⟩])] ∧
      ([] : Str) ≠ "foo".data ∧ (none : Option ℚ) ≠ some (mkRat 7 2) :=
  ⟨rfl, by decide, by decide⟩

/-- C2 as amended: a non-comment line with no opening and no closing brace
produces one sample filed under the empty metric name (substring(0, -1) is
empty), with an empty LabelSet, and with value parseFloat of the whole
trimmed line, which is NaN (none) whenever the line does not begin with a
number. -/
theorem c2_line_without_braces (line : Str)
    (h1 : '\x7b' ∉ line) (h2 : '\x7d' ∉ line) :
    parseLine line = .ok ([], { labels := [], value := jsParseFloat (jsTrim line) }) := by
  have hi1 : jsIndexOf line '\x7b' = -1 := jsIndexOf_of_not_mem line _ h1
  have hi2 : jsIndexOf line '\x7d' = -1 := jsIndexOf_of_not_mem line _ h2
  simp only [parseLine, hi1, hi2]
  rw [show (-1 + 1 : Int) = 0 by norm_num]
  rw [jsSubstring_zero_neg_one, jsSubstring_full]
  rfl

theorem c2_amended_witness :
    parseLine "foo 3.5".data =
      .ok ([], { labels := [], value := jsParseFloat (jsTrim "foo 3.5".data) }) :=
  c2_line_without_braces "foo 3.5".data (by decide) (by decide)

/-- C3 counterexample: a data line whose text after the closing brace is not
numeric does not abort the parse with an InvalidValue error; the sample is
stored with value NaN (none). -/
theorem c3_counterexample :
    parseMetricLines "foo\x7ba=\"1\"\x7d xyz".data =
      .ok [("foo".data, [⟨[("a".data, "1".data)], none⟩])] := rfl

/-- C3 as amended: when the text after the closing brace does not parse as a
number, the exposition parser does not fail: the line still produces its
sample, with the value stored as NaN (none); no InvalidValue error exists. -/
theorem c3_invalid_value_stored_as_nan (name body rest : Str) (labels : List (Str × Str))
    (h1 : '\x7b' ∉ name) (h2 : '\x7d' ∉ name) (h3 : '\x7d' ∉ body)
    (hlab : parseAttributes (jsTrim body) = .ok labels)
    (hval : jsParseFloat (jsTrim rest) = none) :
    parseLine (name ++ '\x7b' :: (body ++ '\x7d' :: rest)) =
      .ok (jsTrim name, { labels := labels, value := none }) := by
  rw [parseLine_decomp name body rest h1 h2 h3, hlab, hval]

theorem c3_amended_witness :
    parseLine "bar\x7ba=1\x7d oops".data =
      .ok ("bar".data, { labels := [("a".data, "1".data)], value := none }) :=
  c3_invalid_value_stored_as_nan "bar".data "a=1".data " oops".data
    [("a".data, "1".data)] (by decide) (by decide) (by decide) (by rfl) (by rfl)

end ExpositionProofs

section DigitLemmas

theorem digitChar_isDigit (d : Nat) (h : d < 10) : (Nat.digitChar d).isDigit = true := by
  interval_cases d <;> decide

theorem digitChar_toNat (d : Nat) (h : d < 10) :
    (Nat.digitChar d).toNat - '0'.toNat = d := by
  interval_cases d <;> decide

theorem isDigit_not_ws (c : Char) (h : c.isDigit = true) : jsIsWS c = false := by
  by_contra hw
  rw [Bool.not_eq_false] at hw
  unfold jsIsWS at hw
  simp only [Bool.or_eq_true, decide_eq_true_eq] at hw
  rcases hw with ((h1 | h1) | h1) | h1 <;> subst h1 <;> exact absurd h (by decide)

theorem isDigit_ne_of (c c2 : Char) (h : c.isDigit = true) (h2 : c2.isDigit = false) :
    c ≠ c2 := fun he => by rw [he, h2] at h; cases h

theorem foldl_digits_eq_ofDigits (l : List Nat) (a : Nat) :
    List.foldl (fun x d => x * 10 + d) a l = a * 10 ^ l.length + Nat.ofDigits 10 l.reverse := by
  induction l generalizing a with
  | nil => simp [Nat.ofDigits]
  | cons d t ih =>
    rw [List.foldl_cons, ih, List.reverse_cons, Nat.ofDigits_append,
      Nat.ofDigits_singleton, List.length_reverse, List.length_cons]
    ring

theorem natReprAux_eq (fuel : Nat) :
    ∀ n : Nat, n ≤ fuel → natReprAux fuel n = ((Nat.digits 10 n).reverse.map Nat.digitChar) := by
  induction fuel with
  | zero =>
    intro n h
    have h0 : n = 0 := Nat.le_zero.mp h
    subst h0
    simp [natReprAux, Nat.digits_zero]
  | succ fuel ih =>
    intro n h
    by_cases h0 : n = 0
    · subst h0; simp [natReprAux, Nat.digits_zero]
    · rw [show natReprAux (fuel + 1) n = natReprAux fuel (n / 10) ++ [Nat.digitChar (n % 10)]
        from by simp [natReprAux, h0]]
      have hdiv : n / 10 < n := Nat.div_lt_self (Nat.pos_of_ne_zero h0) (by norm_num)
      rw [ih (n / 10) (by omega)]
      rw [Nat.digits_def' (by norm_num : 1 < 10) (Nat.pos_of_ne_zero h0)]
      simp [List.reverse_cons]

theorem natRepr_eq_digits (n : Nat) :
    natRepr n = if n = 0 then ['0'] else ((Nat.digits 10 n).reverse.map Nat.digitChar) := by
  unfold natRepr
  by_cases h : n = 0
  · rw [if_pos h, if_pos h]
  · rw [if_neg h, if_neg h, natReprAux_eq n n (le_refl n)]

theorem digitsVal_natRepr (n : Nat) : digitsVal (natRepr n) = n := by
  by_cases h : n = 0
  · subst h; rfl
  · unfold digitsVal
    rw [natRepr_eq_digits, if_neg h, List.foldl_map]
    rw [List.foldl_ext _ (fun x d => x * 10 + d) 0
      (fun a d hd => by
        rw [digitChar_toNat d (Nat.digits_lt_base (by norm_num) (List.mem_reverse.mp hd))])]
    rw [foldl_digits_eq_ofDigits, List.reverse_reverse, Nat.ofDigits_digits]
    simp

theorem natRepr_ne_nil (n : Nat) : natRepr n ≠ [] := by
  rw [natRepr_eq_digits]
  split
  · simp
  · simp only [ne_eq, List.map_eq_nil_iff, List.reverse_eq_nil_iff]
    exact Nat.digits_ne_nil_iff_ne_zero.mpr (by assumption)

theorem natRepr_all_digits (n : Nat) : ∀ c ∈ natRepr n, c.isDigit = true := by
  intro c hc
  rw [natRepr_eq_digits] at hc
  split at hc
  · simp only [List.mem_singleton] at hc
    subst hc
    decide
  · simp only [List.mem_map, List.mem_reverse] at hc
    obtain ⟨d, hd, rfl⟩ := hc
    exact digitChar_isDigit d (Nat.digits_lt_base (by norm_num) hd)

theorem takeWhile_eq_self_of_all (p : Char → Bool) (l : Str) (h : ∀ c ∈ l, p c = true) :
    l.takeWhile p = l := by
  induction l with
  | nil => rfl
  | cons x xs ih =>
    simp [List.takeWhile_cons, h x (List.mem_cons_self x xs),
      ih (fun c hc => h c (List.mem_cons_of_mem _ hc))]

theorem dropWhile_eq_nil_of_all (p : Char → Bool) (l : Str) (h : ∀ c ∈ l, p c = true) :
    l.dropWhile p = [] := by
  induction l with
  | nil => rfl
  | cons x xs ih =>
    simp [List.dropWhile_cons, h x (List.mem_cons_self x xs),
      ih (fun c hc => h c (List.mem_cons_of_mem _ hc))]

theorem jsParseFloat_digits (l : Str) (hne : l ≠ []) (hd : ∀ c ∈ l, c.isDigit = true) :
    jsParseFloat l = some ((digitsVal l : Nat) : ℚ) := by
  obtain ⟨c0, t0, rfl⟩ : ∃ c0 t0, l = c0 :: t0 := by
    cases l with
    | nil => exact absurd rfl hne
    | cons a b => exact ⟨a, b, rfl⟩
  have hc0 : c0.isDigit = true := hd c0 (List.mem_cons_self c0 t0)
  have hdw : (c0 :: t0).dropWhile jsIsWS = c0 :: t0 :=
    dropWhile_eq_self_of_head _ _
      (fun c hc => by injection hc with h2; subst h2; exact isDigit_not_ws c0 hc0)
  have hns : ¬ ((c0 :: t0).head? = some '-' ∨ (c0 :: t0).head? = some '+') := by
    rintro (hcon | hcon) <;>
      (injection hcon with h2; exact isDigit_ne_of c0 _ hc0 (by decide) h2)
  have hm : ¬ (c0 :: t0).head? = some '-' := fun hcon => hns (Or.inl hcon)
  have htake : (c0 :: t0).takeWhile Char.isDigit = c0 :: t0 :=
    takeWhile_eq_self_of_all _ _ hd
  have hdrop : (c0 :: t0).dropWhile Char.isDigit = [] :=
    dropWhile_eq_nil_of_all _ _ hd
  have hdot : ¬ (none : Option Char) = some '.' := by simp
  simp only [jsParseFloat, hdw, if_neg hns, if_neg hm, htake, hdrop, List.head?_nil]
  rw [if_neg (by simp [if_neg hdot])]
  rw [if_neg hdot, if_neg hdot]
  rw [show jsParseExp [] = 0 from rfl]
  rw [if_pos (le_refl (0 : Int))]
  simp only [List.length_nil, show digitsVal [] = 0 from rfl,
    show ((0 : Int).toNat) = 0 from rfl,
    show Int.pow 10 0 = 1 from rfl, show Nat.pow 10 0 = 1 from rfl,
    Nat.cast_zero, mul_one, one_mul, add_zero]
  simp [Rat.mkRat_one]

end DigitLemmas

section RenderRoundTrip

theorem runAttr_inQuote_append (cs : Str) :
    ∀ (m : AttrMachine) (rest : Str), m.state = .IN_QUOTE → (∀ c ∈ cs, ¬ c = m.quote) →
      runAttr m (cs ++ rest) = runAttr { m with valBuf := m.valBuf ++ cs } rest := by
  induction cs with
  | nil => intro m rest _ _; simp
  | cons c cs ih =>
    intro m rest hq hall
    rw [List.cons_append]
    have hstep : stepAttr m c = .ok { m with valBuf := m.valBuf ++ [c] } := by
      simp only [stepAttr, hq]
      rw [if_neg (hall c (List.mem_cons_self c cs))]
    show (match stepAttr m c with
      | .ok m2 => runAttr m2 (cs ++ rest)
      | .error e => .error e) = _
    rw [hstep]
    show runAttr { m with valBuf := m.valBuf ++ [c] } (cs ++ rest) =
      runAttr { m with valBuf := m.valBuf ++ (c :: cs) } rest
    rw [ih { m with valBuf := m.valBuf ++ [c] } rest hq
      (fun x hx => hall x (List.mem_cons_of_mem _ hx))]
    simp [List.append_assoc]

theorem parseAttributes_tag_fragment (tag : Str) (hq : '"' ∉ tag) :
    parseAttributes ("tag=\"".data ++ (tag ++ ['"'])) = .ok [("tag".data, tag)] := by
  have h0 : runAttr initAttrMachine ("tag=\"".data ++ (tag ++ ['"'])) =
      runAttr ⟨.IN_QUOTE, '"', "tag".data, [], []⟩ (tag ++ ['"']) := rfl
  have h1 := runAttr_inQuote_append tag ⟨.IN_QUOTE, '"', "tag".data, [], []⟩ ['"'] rfl
    (fun c hc he => hq ((show c = '"' from he) ▸ hc))
  have h2 : runAttr ({ (⟨.IN_QUOTE, '"', "tag".data, [], []⟩ : AttrMachine) with
      valBuf := ([] : Str) ++ tag }) ['"'] =
      .ok ⟨.INITIAL, '"', [], [], [("tag".data, ([] : Str) ++ tag)]⟩ := rfl
  unfold parseAttributes
  rw [h0, h1, h2]
  show Except.ok [("tag".data, ([] : Str) ++ tag)] = _
  rw [List.nil_append]

theorem parseLine_render (name tag : Str) (c : Nat)
    (hn1 : '\x7b' ∉ name) (hn2 : '\x7d' ∉ name) (hnw : ∀ x ∈ name, jsIsWS x = false)
    (ht1 : '"' ∉ tag) (ht2 : '\x7d' ∉ tag) :
    parseLine (renderQueueLine name tag c) =
      .ok (name, { labels := [("tag".data, tag)], value := some ((c : Nat) : ℚ) }) := by
  have hform : renderQueueLine name tag c =
      name ++ '\x7b' :: (("tag=\"".data ++ (tag ++ ['"'])) ++ '\x7d' :: (' ' :: natRepr c)) := by
    simp [renderQueueLine]
  have hbody : '\x7d' ∉ "tag=\"".data ++ (tag ++ ['"']) := by
    simp only [List.mem_append, List.mem_cons]
    push_neg
    exact ⟨by decide, ht2, by decide⟩
  have htrimb : jsTrim ("tag=\"".data ++ (tag ++ ['"'])) = "tag=\"".data ++ (tag ++ ['"']) := by
    apply jsTrim_eq_self
    · intro x hx
      have hh : ("tag=\"".data ++ (tag ++ ['"'])).head? = some 't' := rfl
      rw [hh] at hx
      injection hx with hx2
      subst hx2
      decide
    · intro x hx
      have hl : ("tag=\"".data ++ (tag ++ ['"'])).getLast? = some '"' := by
        rw [show "tag=\"".data ++ (tag ++ ['"']) = ("tag=\"".data ++ tag) ++ ['"'] by simp]
        exact List.getLast?_concat _
      rw [hl] at hx
      injection hx with hx2
      subst hx2
      decide
  have htrimn : jsTrim name = name := jsTrim_eq_self name
    (fun x hx => hnw x (List.mem_of_mem_head? hx))
    (fun x hx => hnw x (List.mem_of_mem_getLast? hx))
  have htrimr : jsTrim (' ' :: natRepr c) = natRepr c := by
    rw [jsTrim_cons_ws ' ' _ (by decide)]
    exact jsTrim_eq_self _
      (fun x hx => isDigit_not_ws x (natRepr_all_digits c x (List.mem_of_mem_head? hx)))
      (fun x hx => isDigit_not_ws x (natRepr_all_digits c x (List.mem_of_mem_getLast? hx)))
  rw [hform, parseLine_decomp _ _ _ hn1 hn2 hbody]
  simp only [htrimb, parseAttributes_tag_fragment tag ht1, htrimn, htrimr,
    jsParseFloat_digits (natRepr c) (natRepr_ne_nil c) (natRepr_all_digits c),
    digitsVal_natRepr]

theorem newline_not_mem_render (name tag : Str) (c : Nat)
    (hnw : ∀ x ∈ name, jsIsWS x = false) (htw : ∀ x ∈ tag, jsIsWS x = false) :
    '\n' ∉ renderQueueLine name tag c := by
  intro hmem
  unfold renderQueueLine at hmem
  rcases List.mem_append.mp hmem with h | h
  · rcases List.mem_append.mp h with h2 | h2
    · rcases List.mem_append.mp h2 with h3 | h3
      · rcases List.mem_append.mp h3 with h4 | h4
        · rcases List.mem_append.mp h4 with h5 | h5
          · exact absurd (hnw _ h5) (by decide)
          · exact absurd h5 (by decide)
        · exact absurd h4 (by decide)
      · exact absurd (htw _ h3) (by decide)
    · exact absurd h2 (by decide)
  · exact absurd (natRepr_all_digits c _ h) (by decide)

theorem head?_intercalate_cons (l : Str) (ls : List Str) (c : Char)
    (hl : l.head? = some c) :
    (List.intercalate ['\n'] (l :: ls)).head? = some c := by
  cases ls with
  | nil =>
    rw [show List.intercalate ['\n'] [l] = l by simp [List.intercalate]]
    exact hl
  | cons l2 ls2 =>
    rw [show List.intercalate ['\n'] (l :: l2 :: ls2) =
      l ++ '\n' :: List.intercalate ['\n'] (l2 :: ls2) by
        simp [List.intercalate, List.intersperse]]
    cases l with
    | nil => cases hl
    | cons x xs => injection hl with h2; subst h2; rfl

theorem getLast?_intercalate_nl (p : Char → Prop) :
    ∀ (ls : List Str), (∀ l ∈ ls, ∃ c, l.getLast? = some c ∧ p c) → ls ≠ [] →
      ∃ c, (List.intercalate ['\n'] ls).getLast? = some c ∧ p c := by
  intro ls
  induction ls with
  | nil => intro _ h; exact absurd rfl h
  | cons l ls ih =>
    intro hall _
    cases ls with
    | nil =>
      rw [show List.intercalate ['\n'] [l] = l by simp [List.intercalate]]
      exact hall l (List.mem_cons_self _ _)
    | cons l2 ls2 =>
      rw [show List.intercalate ['\n'] (l :: l2 :: ls2) =
        l ++ '\n' :: List.intercalate ['\n'] (l2 :: ls2) by
          simp [List.intercalate, List.intersperse]]
      obtain ⟨c, hc, hp⟩ := ih (fun x hx => hall x (List.mem_cons_of_mem _ hx)) (by simp)
      refine ⟨c, ?_, hp⟩
      rw [List.getLast?_append_of_ne_nil _ (by simp)]
      cases hX : List.intercalate ['\n'] (l2 :: ls2) with
      | nil => rw [hX] at hc; cases hc
      | cons y ys =>
        rw [hX] at hc
        rw [List.getLast?_cons_cons]
        exact hc

theorem getLast?_render (name tag : Str) (c : Nat) :
    ∃ x, (renderQueueLine name tag c).getLast? = some x ∧ x.isDigit = true := by
  obtain ⟨d, ds, hds⟩ : ∃ d ds, natRepr c = d :: ds := by
    cases hh : natRepr c with
    | nil => exact absurd hh (natRepr_ne_nil c)
    | cons a b => exact ⟨a, b, rfl⟩
  have hlast : (natRepr c).getLast? = some ((natRepr c).getLast (by rw [hds]; simp)) :=
    List.getLast?_eq_getLast _ _
  obtain ⟨x, hx⟩ : ∃ x, (natRepr c).getLast? = some x := ⟨_, hlast⟩
  refine ⟨x, ?_, natRepr_all_digits c x (List.mem_of_mem_getLast? hx)⟩
  unfold renderQueueLine
  rw [List.append_assoc, List.append_assoc, List.append_assoc, List.append_assoc]
  rw [List.getLast?_append_of_ne_nil _ (by
    intro hcon
    rcases List.append_eq_nil.mp hcon with ⟨-, hcon2⟩
    rcases List.append_eq_nil.mp hcon2 with ⟨-, hcon3⟩
    rcases List.append_eq_nil.mp hcon3 with ⟨-, hcon4⟩
    rcases List.append_eq_nil.mp hcon4 with ⟨-, hcon5⟩
    exact natRepr_ne_nil c hcon5)]
  rw [List.getLast?_append_of_ne_nil _ (by
    intro hcon
    rcases List.append_eq_nil.mp hcon with ⟨-, hcon2⟩
    rcases List.append_eq_nil.mp hcon2 with ⟨-, hcon3⟩
    rcases List.append_eq_nil.mp hcon3 with ⟨-, hcon4⟩
    exact natRepr_ne_nil c hcon4)]
  rw [List.getLast?_append_of_ne_nil _ (by
    intro hcon
    rcases List.append_eq_nil.mp hcon with ⟨-, hcon2⟩
    rcases List.append_eq_nil.mp hcon2 with ⟨-, hcon3⟩
    exact natRepr_ne_nil c hcon3)]
  rw [List.getLast?_append_of_ne_nil _ (by
    intro hcon
    rcases List.append_eq_nil.mp hcon with ⟨-, hcon2⟩
    exact natRepr_ne_nil c hcon2)]
  rw [List.getLast?_append_of_ne_nil _ (natRepr_ne_nil c)]
  exact hx

theorem parseLinesGo_cons_ok (acc : List (Str × List Metric)) (line : Str)
    (rest : List Str) (nm : Str) (met : Metric)
    (hne : ¬ line.head? = some '#') (hp : parseLine line = .ok (nm, met)) :
    parseLinesGo acc (line :: rest) =
      parseLinesGo (objSet acc nm ((objGet acc nm).getD [] ++ [met])) rest := by
  simp only [parseLinesGo]
  rw [if_neg hne, hp]

theorem parseLinesGo_render (c0 : Char) (nrest : Str)
    (hn1 : '\x7b' ∉ c0 :: nrest) (hn2 : '\x7d' ∉ c0 :: nrest)
    (hnw : ∀ x ∈ c0 :: nrest, jsIsWS x = false) (hnh : ¬ c0 = '#') :
    ∀ (m : List (Str × Nat)),
      (∀ p ∈ m, '"' ∉ p.1 ∧ '\x7d' ∉ p.1) →
      ∀ ms0 : List Metric,
      parseLinesGo [(c0 :: nrest, ms0)]
          (m.map (fun p => renderQueueLine (c0 :: nrest) p.1 p.2)) =
        .ok [(c0 :: nrest, ms0 ++ m.map (fun p =>
          ({ labels := [("tag".data, p.1)], value := some ((p.2 : Nat) : ℚ) } : Metric)))] := by
  intro m
  induction m with
  | nil => intro _ ms0; simp [parseLinesGo]
  | cons p m ih =>
    intro hall ms0
    obtain ⟨h1, h2⟩ := hall p (List.mem_cons_self _ _)
    rw [List.map_cons, parseLinesGo_cons_ok _ _ _ _ _
      (by
        rw [show (renderQueueLine (c0 :: nrest) p.1 p.2).head? = some c0 from rfl]
        intro hcon
        injection hcon with hc
        exact hnh hc)
      (parseLine_render _ p.1 p.2 hn1 hn2 hnw h1 h2)]
    rw [show objGet [(c0 :: nrest, ms0)] (c0 :: nrest) = some ms0 from by simp [objGet]]
    rw [show Option.getD (some ms0) [] = ms0 from rfl]
    rw [show objSet [(c0 :: nrest, ms0)] (c0 :: nrest)
        (ms0 ++ [(⟨[("tag".data, p.1)], some ((p.2 : Nat) : ℚ)⟩ : Metric)]) =
        [(c0 :: nrest, ms0 ++ [(⟨[("tag".data, p.1)], some ((p.2 : Nat) : ℚ)⟩ : Metric)])]
      from by simp [objSet]]
    rw [ih (fun q hq => hall q (List.mem_cons_of_mem _ hq)) _]
    simp

/-- C8 counterexample: a tag containing a closing brace satisfies the claim's
restriction (no double quote, comma or whitespace) yet breaks the round trip:
the rendered line re-parses with an empty LabelSet and a NaN value, so the
reconstructed mapping differs from the original one. -/
theorem c8_counterexample :
    parseMetricLines (renderQueueMetrics "m".data [("a\x7db".data, 1)]) =
      .ok [("m".data, [⟨[], none⟩])] ∧
    reconstructQueue [("m".data, [(⟨[], none⟩ : Metric)])] "m".data ≠
      [(some "a\x7db".data, some ((1 : Nat) : ℚ))] := by
  constructor
  · rfl
  · decide

/-- C8 as amended: for a nonempty metric name containing no brace and no
whitespace and not starting with the comment mark, and for a mapping whose
tags contain no double quote, no comma, no whitespace and additionally no
closing brace, rendering the mapping and re-parsing the blob through the
exposition and label parsers succeeds and reconstructs exactly the original
tag-to-count mapping. -/
theorem c8_round_trip (name : Str) (m : List (Str × Nat))
    (hn0 : name ≠ []) (hn1 : '\x7b' ∉ name) (hn2 : '\x7d' ∉ name)
    (hnw : ∀ x ∈ name, jsIsWS x = false) (hnh : name.head? ≠ some '#')
    (ht : ∀ p ∈ m, '"' ∉ p.1 ∧ ',' ∉ p.1 ∧ (∀ x ∈ p.1, jsIsWS x = false) ∧ '\x7d' ∉ p.1) :
    ∃ res, parseMetricLines (renderQueueMetrics name m) = .ok res ∧
      reconstructQueue res name = m.map (fun p => (some p.1, some ((p.2 : Nat) : ℚ))) := by
  obtain ⟨c0, nrest, rfl⟩ : ∃ c0 nrest, name = c0 :: nrest := by
    cases name with
    | nil => exact absurd rfl hn0
    | cons a b => exact ⟨a, b, rfl⟩
  have hnh2 : ¬ c0 = '#' := fun he => hnh (by rw [he]; rfl)
  cases m with
  | nil =>
    refine ⟨[([], [⟨[], none⟩])], rfl, ?_⟩
    unfold reconstructQueue
    rw [show objGet [(([] : Str), [(⟨[], none⟩ : Metric)])] (c0 :: nrest) = none from by
      simp [objGet]]
    rfl
  | cons p m' =>
    have hnl : ∀ l ∈ (p :: m').map (fun q => renderQueueLine (c0 :: nrest) q.1 q.2),
        '\n' ∉ l := by
      intro l hl
      simp only [List.mem_map] at hl
      obtain ⟨q, hq, rfl⟩ := hl
      exact newline_not_mem_render _ _ _ hnw (ht q hq).2.2.1
    have hsplit : ((renderQueueMetrics (c0 :: nrest) (p :: m')).splitOn '\n') =
        (p :: m').map (fun q => renderQueueLine (c0 :: nrest) q.1 q.2) := by
      unfold renderQueueMetrics
      exact List.splitOn_intercalate _ '\n' hnl (by simp)
    have htrim : jsTrim (renderQueueMetrics (c0 :: nrest) (p :: m')) =
        renderQueueMetrics (c0 :: nrest) (p :: m') := by
      apply jsTrim_eq_self
      · intro x hx
        unfold renderQueueMetrics at hx
        rw [List.map_cons, head?_intercalate_cons (renderQueueLine (c0 :: nrest) p.1 p.2)
          (List.map (fun q => renderQueueLine (c0 :: nrest) q.1 q.2) m') c0 rfl] at hx
        injection hx with hx2
        subst hx2
        exact hnw c0 (List.mem_cons_self _ _)
      · intro x hx
        unfold renderQueueMetrics at hx
        obtain ⟨d, hd, hdig⟩ := getLast?_intercalate_nl (fun ch => ch.isDigit = true)
          ((p :: m').map (fun q => renderQueueLine (c0 :: nrest) q.1 q.2))
          (by
            intro l hl
            simp only [List.mem_map] at hl
            obtain ⟨q, hq, rfl⟩ := hl
            exact getLast?_render _ _ _)
          (by simp)
        rw [hd] at hx
        injection hx with hx2
        subst hx2
        exact isDigit_not_ws _ hdig
    unfold parseMetricLines
    rw [htrim, hsplit, List.map_cons]
    rw [parseLinesGo_cons_ok _ _ _ _ _
      (by
        rw [show (renderQueueLine (c0 :: nrest) p.1 p.2).head? = some c0 from rfl]
        intro hcon
        injection hcon with hc
        exact hnh2 hc)
      (parseLine_render _ p.1 p.2 hn1 hn2 hnw (ht p (List.mem_cons_self _ _)).1
        (ht p (List.mem_cons_self _ _)).2.2.2)]
    rw [show objSet ([] : List (Str × List Metric)) (c0 :: nrest)
        ((objGet ([] : List (Str × List Metric)) (c0 :: nrest)).getD [] ++
          [(⟨[("tag".data, p.1)], some ((p.2 : Nat) : ℚ)⟩ : Metric)]) =
        [(c0 :: nrest, [(⟨[("tag".data, p.1)], some ((p.2 : Nat) : ℚ)⟩ : Metric)])]
      from by simp [objGet, objSet]]
    rw [parseLinesGo_render c0 nrest hn1 hn2 hnw hnh2 m'
      (fun q hq => ⟨(ht q (List.mem_cons_of_mem _ hq)).1,
        (ht q (List.mem_cons_of_mem _ hq)).2.2.2⟩) _]
    refine ⟨_, rfl, ?_⟩
    simp [reconstructQueue, objGet]

theorem c8_round_trip_witness :
    ∃ res, parseMetricLines (renderQueueMetrics "m".data [("billing".data, 2)]) = .ok res ∧
      reconstructQueue res "m".data =
        [("billing".data, 2)].map (fun p => (some p.1, some ((p.2 : Nat) : ℚ))) :=
  c8_round_trip "m".data [("billing".data, 2)] (by decide) (by decide) (by decide)
    (by decide) (by decide) (by decide)

end RenderRoundTrip

end Romusha
